import Mathlib

/-!
Verification of the decentralized aggregation engine
(`AggregateStrategy.cpp` / `ndn-aggregate-utils.cpp`).

The development shallowly embeds the C++ source:
* machine integers (`uint64_t`) become `Nat` with explicit `% U64`
  at every arithmetic step the C++ performs on a `uint64_t`;
* C++ `int` identifiers become `Int`;
* `std::set<int>` becomes `Finset Int` (iteration in ascending order is
  modelled with `ascList`, a fuel-based minimum-first enumeration chosen
  so that concrete runs reduce inside the kernel);
* the static value cache `m_cachedValues` (an `unordered_map`) becomes an
  association list whose most recent insertion wins;
* NDN name components are modelled at the level the code reads them:
  `toUri` strings become `List Char`, and where the engine only uses the
  identifier set parsed out of a name, the set itself is carried.
-/

/-- `2^64`, the modulus of all `uint64_t` arithmetic in the source. -/
def U64 : Nat := 18446744073709551616

/-- The `uint64_t` modulus is positive. -/
theorem U64_pos : 0 < U64 := by decide

/-! ## Byte-level value encoding (`ndn-aggregate-utils.cpp`)

`createDataWithValue` stores `htobe64(value)` as an 8-byte content buffer;
`extractValueFromContent` reads the first 8 bytes back with `be64toh` when
the content is at least 8 bytes long, and otherwise falls back to parsing
the content as decimal text with `std::stoull` (yielding 0 on failure).
-/

/-- Big-endian byte list of a `uint64_t` value, as produced by `htobe64`
followed by the byte-wise copy into the content buffer. -/
def htobe64 (v : Nat) : List Nat :=
  [v / 72057594037927936 % 256,
   v / 281474976710656 % 256,
   v / 1099511627776 % 256,
   v / 4294967296 % 256,
   v / 16777216 % 256,
   v / 65536 % 256,
   v / 256 % 256,
   v % 256]

/-- Reassembling a big-endian byte list into a number, as `be64toh` does
after the byte-wise copy out of the content buffer. -/
def be64toh (bs : List Nat) : Nat :=
  bs.foldl (fun acc b => acc * 256 + b) 0

/-- Characters C++ `isspace` (default locale) treats as whitespace, as
bytes; `std::stoull`/`std::stoi` skip them before the number. -/
def isCppSpaceByte (b : Nat) : Bool :=
  b == 32 || b == 9 || b == 10 || b == 11 || b == 12 || b == 13

/-- ASCII decimal digit test on a byte. -/
def isDigitByte (b : Nat) : Bool :=
  48 ≤ b && b ≤ 57

/-- Value of a run of ASCII digit bytes. -/
def digitsVal (ds : List Nat) : Nat :=
  ds.foldl (fun a d => a * 10 + (d - 48)) 0

/-- Model of `std::stoull` on a byte string: skip whitespace, optional
sign, then a non-empty digit run; `none` models a thrown exception
(no digits, or value out of the `unsigned long long` range). A negative
input is accepted by `stoull` and wraps modulo `2^64`. -/
def stoullModel (bs : List Nat) : Option Nat :=
  let afterWs := bs.dropWhile isCppSpaceByte
  let signed : Bool × List Nat :=
    match afterWs with
    | 45 :: t => (true, t)
    | 43 :: t => (false, t)
    | l => (false, l)
  let ds := signed.2.takeWhile isDigitByte
  if ds.isEmpty then none
  else
    let n := digitsVal ds
    if n ≥ U64 then none
    else if signed.1 then some ((U64 - n % U64) % U64) else some n

/-- A Data packet as the aggregation utilities see it: a name (component
URIs as character lists) and a content byte buffer. -/
structure DataPacket where
  name : List (List Char)
  content : List Nat
  deriving DecidableEq

/-- `AggregateUtils::createDataWithValue`: content is the 8-byte
big-endian encoding of the value (signing and freshness are
metadata with no bearing on the value). -/
def createDataWithValue (name : List (List Char)) (value : Nat) : DataPacket :=
  ⟨name, htobe64 value⟩

/-- `AggregateUtils::extractValueFromContent`: read 8 big-endian bytes if
the content has at least 8, else interpret the content as decimal text
via `std::stoull`, with 0 on a parse failure. -/
def extractValueFromContent (d : DataPacket) : Nat :=
  if 8 ≤ d.content.length then
    be64toh (d.content.take 8)
  else
    (stoullModel d.content).getD 0

/-! ## Identifier parsing (`AggregateUtils::parseNumbersFromName`) -/

/-- Does the pattern occur at the head of the list? (`std::string::find`
support.) -/
def matchesAt (pat : List Char) (s : List Char) : Bool :=
  match pat, s with
  | [], _ => true
  | _ :: _, [] => false
  | p :: ps, c :: cs => p == c && matchesAt ps cs

/-- Does the pattern occur anywhere in the list?  Models
`uri.find(pat) != std::string::npos`. -/
def containsPat (pat : List Char) : List Char → Bool
  | [] => matchesAt pat []
  | c :: cs => matchesAt pat (c :: cs) || containsPat pat cs

/-- The marker `"seq="` that tags a sequence-number component. -/
def seqMarker : List Char := ['s', 'e', 'q', '=']

/-- Model of `std::stoi` on a component URI: skip whitespace, optional
sign, then a non-empty decimal digit run; `none` models a thrown
exception (no digits, or out of the 32-bit `int` range), which the
source catches and skips. -/
def stoiModel (cs : List Char) : Option Int :=
  let afterWs := cs.dropWhile (fun c => isCppSpaceByte c.toNat)
  let signed : Bool × List Char :=
    match afterWs with
    | '-' :: t => (true, t)
    | '+' :: t => (false, t)
    | l => (false, l)
  let ds := signed.2.takeWhile (fun c => isDigitByte c.toNat)
  if ds.isEmpty then none
  else
    let n : Nat := digitsVal (ds.map Char.toNat)
    let v : Int := if signed.1 then -(n : Int) else (n : Int)
    if v < -2147483648 ∨ v > 2147483647 then none else some v

/-- `uri[0] == '%'` stripping: drop one leading percent character
(an empty URI reads `'\0'` at index 0 in C++11, which is not `'%'`). -/
def stripPercent (u : List Char) : List Char :=
  match u with
  | '%' :: rest => rest
  | _ => u

/-- One component's contribution inside the parsing loop of
`AggregateUtils::parseNumbersFromName`: skip `"seq="` components, strip a
leading `'%'`, parse with `std::stoi`, keep strictly positive results. -/
def parseComponentStep (acc : Finset Int) (u : List Char) : Finset Int :=
  if containsPat seqMarker u then acc
  else
    match stoiModel (stripPercent u) with
    | some id => if 0 < id then insert id acc else acc
    | none => acc

/-- `AggregateUtils::parseNumbersFromName`: the loop starts at component
index 1 (the leading label is skipped) and inserts into a `std::set`. -/
def parseNumbersFromName (name : List (List Char)) : Finset Int :=
  (name.drop 1).foldl parseComponentStep ∅

/-! ## Ascending enumeration of a finite identifier set

`std::set<int>` iterates its elements in ascending order; `ascList`
reproduces that order by repeatedly removing the minimum. -/

/-- Minimum-first enumeration, with fuel to keep the recursion
structural. -/
def ascListAux : Nat → Finset Int → List Int
  | 0, _ => []
  | fuel + 1, s =>
    if h : s.Nonempty then
      s.min' h :: ascListAux fuel (s.erase (s.min' h))
    else []

/-- The elements of a finite identifier set in ascending order. -/
def ascList (s : Finset Int) : List Int :=
  ascListAux s.card s

/-! ## The value cache (`AggregateStrategy::m_cachedValues`)

The process-wide `std::unordered_map<int, uint64_t>`; modelled as an
association list where the most recent insertion shadows older ones. -/

/-- Cache state: identifier to last observed atomic value. -/
def Cache : Type := List (Int × Nat)

/-- `m_cachedValues.find(id)` / `m_cachedValues[id]` read access. -/
def cacheLookup (c : Cache) (k : Int) : Option Nat :=
  (c.find? (fun p => p.1 == k)).map (fun p => p.2)

/-- `m_cachedValues[id] = val` overwrite. -/
def cacheInsert (c : Cache) (k : Int) (v : Nat) : Cache :=
  (k, v) :: c

/-! ## Per-entry aggregation state (`AggregateStrategy::AggregatePitInfo`)

`waitingFor` is the map held behind `waitInfo` (absent `waitInfo` equals
an empty map for every read the claims touch); entry names are abstracted
to `Nat` since the engine only compares them for equality. -/

/-- Strategy state attached to one pending aggregate request. -/
structure AggregatePitInfo where
  neededIds : Finset Int
  pendingIds : Finset Int
  partialSum : Nat
  waitingFor : List (Int × Nat)
  deriving DecidableEq

/-- The fresh state `afterReceiveInterest` installs for a newly admitted
aggregate request (step 4): both id sets are the parsed request set and
the sum starts at zero. -/
def freshInfo (requestedIds : Finset Int) : AggregatePitInfo :=
  ⟨requestedIds, requestedIds, 0, []⟩

/-! ## Response aggregation (`processSubInterestData` and helpers) -/

/-- `AggregateStrategy::updateParentWithSubInterestData`: add the
response's value to the parent's partial sum (`uint64_t` wrap), drop each
covered identifier from `pendingIds`, and cache the value when the
response covers exactly one identifier. -/
def updateParentWithSubInterestData (info : AggregatePitInfo) (cache : Cache)
    (dataIds : Finset Int) (value : Nat) : AggregatePitInfo × Cache :=
  let info' := { info with
    partialSum := (info.partialSum + value) % U64,
    pendingIds := info.pendingIds \ dataIds }
  let cache' := (ascList dataIds).foldl
    (fun c fulfilledId => if dataIds.card = 1 then cacheInsert c fulfilledId value else c)
    cache
  (info', cache')

/-- One sub-interest response applied to the parent state (its covered
identifier set and its value), without the emission decision. -/
def subDataStep (st : AggregatePitInfo × Cache) (r : Finset Int × Nat) :
    AggregatePitInfo × Cache :=
  updateParentWithSubInterestData st.1 st.2 r.1 r.2

/-- A sequence of sub-interest responses applied in arrival order. -/
def processSubResponses (st : AggregatePitInfo × Cache)
    (rs : List (Finset Int × Nat)) : AggregatePitInfo × Cache :=
  rs.foldl subDataStep st

/-- `AggregateStrategy::processSubInterestData`: apply the response, then
emit the final aggregated Data (carrying `partialSum`) exactly when
`pendingIds` has emptied — the source checks only `pendingIds.empty()`
here. -/
def processSubInterestData (info : AggregatePitInfo) (cache : Cache)
    (dataIds : Finset Int) (value : Nat) :
    (AggregatePitInfo × Cache) × Option Nat :=
  let st := updateParentWithSubInterestData info cache dataIds value
  (st, if st.1.pendingIds = ∅ then some st.1.partialSum else none)

/-- `AggregateStrategy::satisfyPiggybackedInterests`, sum computation for
one dependent: fold its own `neededIds` over the value cache, adding the
cached value when present and skipping the identifier otherwise. -/
def childSumFromCache (cache : Cache) (neededIds : Finset Int) : Nat :=
  (ascList neededIds).foldl
    (fun childSum cid =>
      match cacheLookup cache cid with
      | some v => (childSum + v) % U64
      | none => childSum)
    0

/-! ## Request path (`afterReceiveInterest` and helpers) -/

/-- A view of another PIT entry as the request-path scans read it:
its name (abstracted), whether it is an aggregate-namespace name of at
least two components, its generation marker, the identifier set parsed
from its name, and whether it has out-records. -/
structure PitSnapshot where
  name : Nat
  isAggregate : Bool
  seq : Option Nat
  ids : Finset Int
  hasOutRecords : Bool
  deriving DecidableEq

/-- Modelled from the spec: `AggregateUtils::doSequenceComponentsMatch`
is declared in `ndn-aggregate-utils.hpp` but its body is not under
`src/`; per the spec's generation marker (§3) and the inline comparison
in the earlier revision, two markers match when the components are equal
or both absent. -/
def doSequenceComponentsMatch (a b : Option Nat) : Bool :=
  a == b

/-- `AggregateStrategy::checkInterestAggregation`: with out-records on
this entry, any in-record (same face or different face) aggregates the
interest; otherwise a different PIT entry with the same name and
out-records aggregates it. -/
def checkInterestAggregation (ingressFace : Nat) (ownHasOutRecords : Bool)
    (ownInFaces : List Nat) (interestName : Nat)
    (others : List PitSnapshot) : Bool :=
  if ownHasOutRecords then
    let isSameFaceDuplicate := ownInFaces.any (fun f => f == ingressFace)
    let isDifferentFaceDuplicate := ownInFaces.any (fun f => f != ingressFace)
    if isSameFaceDuplicate then true
    else if isDifferentFaceDuplicate then true
    else others.any (fun e => e.name == interestName && e.hasOutRecords)
  else
    others.any (fun e => e.name == interestName && e.hasOutRecords)

/-- `AggregateStrategy::processContentStoreHits`, mutation part: iterate
the pending identifiers (a `std::set`, so in sorted order), and for each
one found in the value cache add its cached value to `partialSum`
(`uint64_t` wrap) and erase it from `pendingIds`. -/
def processContentStoreHits (cache : Cache) (info : AggregatePitInfo) :
    AggregatePitInfo :=
  (ascList info.pendingIds).foldl
    (fun acc id =>
      match cacheLookup cache id with
      | some cachedValue =>
          { acc with
            partialSum := (acc.partialSum + cachedValue) % U64,
            pendingIds := acc.pendingIds.erase id }
      | none => acc)
    info

/-- `AggregateStrategy::checkSubsetSupersetRelationships`: scan the other
PIT entries; skip non-aggregate entries and mismatched generation
markers; on the first entry whose ids are a superset of the request's
full id set, register the request as a dependent of that entry and stop
(the returned name says whose dependent it became); on a subset entry,
move the still-pending overlap into `waitingFor` pointing at that entry
and keep scanning. -/
def checkSubsetSupersetRelationships (interestSeq : Option Nat)
    (requestedIds : Finset Int) (info : AggregatePitInfo) :
    List PitSnapshot → AggregatePitInfo × Option Nat
  | [] => (info, none)
  | e :: rest =>
    if !e.isAggregate then
      checkSubsetSupersetRelationships interestSeq requestedIds info rest
    else if !doSequenceComponentsMatch e.seq interestSeq then
      checkSubsetSupersetRelationships interestSeq requestedIds info rest
    else if requestedIds ⊆ e.ids then
      (info, some e.name)
    else if e.ids ⊆ requestedIds then
      let moved := ascList (info.pendingIds ∩ e.ids)
      checkSubsetSupersetRelationships interestSeq requestedIds
        { info with
          pendingIds := info.pendingIds \ e.ids,
          waitingFor := info.waitingFor ++ moved.map (fun i => (i, e.name)) }
        rest
    else
      checkSubsetSupersetRelationships interestSeq requestedIds info rest

/-- `splitAndForwardInterests`' grouping loop: route each pending
identifier (skipping identifiers with no route) and collect, per next-hop
face, the pending identifiers routed to it. -/
def splitGroups (route : Int → Option Nat) (pendingIds : Finset Int) :
    List (Nat × Finset Int) :=
  let faces := ((ascList pendingIds).filterMap route).dedup
  faces.map (fun f => (f, pendingIds.filter (fun i => route i = some f)))

/-- `AggregateStrategy::splitAndForwardInterests`: nothing is forwarded
when `pendingIds` is empty; when every pending identifier routes to one
single face, one interest naming exactly `pendingIds` is forwarded
(`handleSingleFaceForwarding`, rewritten or original); otherwise one
sub-interest per face, naming that face's identifiers.  The result lists
each forwarded sub-request as (face, identifier set). -/
def splitAndForwardInterests (route : Int → Option Nat)
    (pendingIds : Finset Int) : List (Nat × Finset Int) :=
  if pendingIds = ∅ then []
  else
    match splitGroups route pendingIds with
    | [g] => if g.2.card = pendingIds.card then [(g.1, pendingIds)] else [g]
    | gs => gs

/-- What the request path did with one incoming aggregate interest. -/
structure InterestOutcome where
  stoppedAtAdmission : Bool
  satisfiedFromCache : Bool
  cacheResponseValue : Option Nat
  deliveredTo : List Nat
  piggybackedOn : Option Nat
  finalInfo : AggregatePitInfo
  forwarded : List (Nat × Finset Int)
  deriving DecidableEq

/-- `AggregateStrategy::afterReceiveInterest`, aggregate-processing path
(steps 2, 4, 7, 8, 9; the early exits for non-aggregate names and for a
producer's own interests forward the interest unmodified and are outside
the claims' scenarios).  Note that step 8's helper returns `void` in the
source, so step 9 (`splitAndForwardInterests`) runs even when the
request was just registered as a piggybacking dependent. -/
def afterReceiveInterest (cache : Cache) (route : Int → Option Nat)
    (ingressFace : Nat) (ownHasOutRecords : Bool) (ownInFaces : List Nat)
    (others : List PitSnapshot) (interestName : Nat)
    (interestSeq : Option Nat) (requestedIds : Finset Int) :
    InterestOutcome :=
  if checkInterestAggregation ingressFace ownHasOutRecords ownInFaces
      interestName others then
    { stoppedAtAdmission := true, satisfiedFromCache := false,
      cacheResponseValue := none, deliveredTo := [], piggybackedOn := none,
      finalInfo := freshInfo requestedIds, forwarded := [] }
  else
    let info1 := processContentStoreHits cache (freshInfo requestedIds)
    if info1.pendingIds = ∅ then
      { stoppedAtAdmission := false, satisfiedFromCache := true,
        cacheResponseValue := some info1.partialSum,
        deliveredTo := ownInFaces, piggybackedOn := none,
        finalInfo := info1, forwarded := [] }
    else
      let scanned := checkSubsetSupersetRelationships interestSeq
        requestedIds info1 others
      { stoppedAtAdmission := false, satisfiedFromCache := false,
        cacheResponseValue := none, deliveredTo := [],
        piggybackedOn := scanned.2, finalInfo := scanned.1,
        forwarded := splitAndForwardInterests route scanned.1.pendingIds }

/-! ## Helper lemmas -/

/-- Union of a list of identifier sets. -/
def listUnion (l : List (Finset Int)) : Finset Int :=
  l.foldr (fun s a => s ∪ a) ∅

theorem mem_listUnion {l : List (Finset Int)} {x : Int} :
    x ∈ listUnion l ↔ ∃ s ∈ l, x ∈ s := by
  induction l with
  | nil => simp [listUnion]
  | cons s t ih => simp [listUnion, List.foldr] at ih ⊢; rw [ih]

theorem mem_ascListAux (x : Int) :
    ∀ (fuel : Nat) (s : Finset Int), s.card ≤ fuel →
      (x ∈ ascListAux fuel s ↔ x ∈ s) := by
  intro fuel
  induction fuel with
  | zero =>
    intro s hs
    have hempty : s = ∅ := Finset.card_eq_zero.mp (Nat.le_zero.mp hs)
    subst hempty; simp [ascListAux]
  | succ n ih =>
    intro s hs
    by_cases h : s.Nonempty
    · have hm : s.min' h ∈ s := s.min'_mem h
      have hcard : (s.erase (s.min' h)).card ≤ n := by
        have := Finset.card_erase_of_mem hm
        omega
      simp only [ascListAux, dif_pos h, List.mem_cons, ih _ hcard,
        Finset.mem_erase]
      constructor
      · rintro (rfl | ⟨_, hx⟩)
        · exact hm
        · exact hx
      · intro hx
        by_cases hxm : x = s.min' h
        · exact Or.inl hxm
        · exact Or.inr ⟨hxm, hx⟩
    · have hempty : s = ∅ := Finset.not_nonempty_iff_eq_empty.mp h
      subst hempty; simp [ascListAux]

theorem mem_ascList {x : Int} {s : Finset Int} : x ∈ ascList s ↔ x ∈ s :=
  mem_ascListAux x s.card s le_rfl

theorem ascListAux_map_sum (f : Int → Nat) :
    ∀ (fuel : Nat) (s : Finset Int), s.card ≤ fuel →
      ((ascListAux fuel s).map f).sum = ∑ i ∈ s, f i := by
  intro fuel
  induction fuel with
  | zero =>
    intro s hs
    have hempty : s = ∅ := Finset.card_eq_zero.mp (Nat.le_zero.mp hs)
    subst hempty; simp [ascListAux]
  | succ n ih =>
    intro s hs
    by_cases h : s.Nonempty
    · have hm : s.min' h ∈ s := s.min'_mem h
      have hcard : (s.erase (s.min' h)).card ≤ n := by
        have := Finset.card_erase_of_mem hm
        omega
      simp only [ascListAux, dif_pos h, List.map_cons, List.sum_cons,
        ih _ hcard]
      exact Finset.add_sum_erase s f hm
    · have hempty : s = ∅ := Finset.not_nonempty_iff_eq_empty.mp h
      subst hempty; simp [ascListAux]

theorem ascList_map_sum (f : Int → Nat) (s : Finset Int) :
    ((ascList s).map f).sum = ∑ i ∈ s, f i :=
  ascListAux_map_sum f s.card s le_rfl

theorem mem_foldl_parse (l : List (List Char)) (acc : Finset Int) (x : Int) :
    x ∈ l.foldl parseComponentStep acc ↔
      x ∈ acc ∨ (0 < x ∧ ∃ u ∈ l,
        containsPat seqMarker u = false ∧ stoiModel (stripPercent u) = some x) := by
  induction l generalizing acc with
  | nil => simp
  | cons u t ih =>
    rw [List.foldl_cons, ih]
    by_cases hc : containsPat seqMarker u = true
    · simp only [parseComponentStep, if_pos hc, List.mem_cons]
      constructor
      · rintro (hx | ⟨hpos, u', hu', hcu', hsu'⟩)
        · exact Or.inl hx
        · exact Or.inr ⟨hpos, u', Or.inr hu', hcu', hsu'⟩
      · rintro (hx | ⟨hpos, u', (rfl | hu'), hcu', hsu'⟩)
        · exact Or.inl hx
        · rw [hc] at hcu'; simp at hcu'
        · exact Or.inr ⟨hpos, u', hu', hcu', hsu'⟩
    · cases hs : stoiModel (stripPercent u) with
      | none =>
        simp only [parseComponentStep, if_neg hc, hs, List.mem_cons]
        constructor
        · rintro (hx | ⟨hpos, u', hu', hcu', hsu'⟩)
          · exact Or.inl hx
          · exact Or.inr ⟨hpos, u', Or.inr hu', hcu', hsu'⟩
        · rintro (hx | ⟨hpos, u', (rfl | hu'), hcu', hsu'⟩)
          · exact Or.inl hx
          · rw [hs] at hsu'; cases hsu'
          · exact Or.inr ⟨hpos, u', hu', hcu', hsu'⟩
      | some id =>
        by_cases hpos : 0 < id
        · simp only [parseComponentStep, if_neg hc, hs, if_pos hpos,
            Finset.mem_insert, List.mem_cons]
          constructor
          · rintro ((rfl | hx) | ⟨hpx, u', hu', hcu', hsu'⟩)
            · exact Or.inr ⟨hpos, u, Or.inl rfl, Bool.eq_false_iff.mpr hc, hs⟩
            · exact Or.inl hx
            · exact Or.inr ⟨hpx, u', Or.inr hu', hcu', hsu'⟩
          · rintro (hx | ⟨hpx, u', (rfl | hu'), hcu', hsu'⟩)
            · exact Or.inl (Or.inr hx)
            · rw [hs] at hsu'; cases hsu'; exact Or.inl (Or.inl rfl)
            · exact Or.inr ⟨hpx, u', hu', hcu', hsu'⟩
        · simp only [parseComponentStep, if_neg hc, hs, if_neg hpos, List.mem_cons]
          constructor
          · rintro (hx | ⟨hpx, u', hu', hcu', hsu'⟩)
            · exact Or.inl hx
            · exact Or.inr ⟨hpx, u', Or.inr hu', hcu', hsu'⟩
          · rintro (hx | ⟨hpx, u', (rfl | hu'), hcu', hsu'⟩)
            · exact Or.inl hx
            · rw [hs] at hsu'; cases hsu'; exact absurd hpx hpos
            · exact Or.inr ⟨hpx, u', hu', hcu', hsu'⟩

/-- C9: extracting the value from a data packet created with value `v`
returns `v` for every unsigned 64-bit value, via the 8-byte big-endian
payload encoding. -/
theorem createData_extract_roundtrip (name : List (List Char)) (v : Nat)
    (hv : v < U64) :
    extractValueFromContent (createDataWithValue name v) = v := by
  have hU : v < 18446744073709551616 := hv
  have e7 : v / 72057594037927936 / 256 = v / 18446744073709551616 :=
    Nat.div_div_eq_div_mul v 72057594037927936 256
  have e6 : v / 281474976710656 / 256 = v / 72057594037927936 :=
    Nat.div_div_eq_div_mul v 281474976710656 256
  have e5 : v / 1099511627776 / 256 = v / 281474976710656 :=
    Nat.div_div_eq_div_mul v 1099511627776 256
  have e4 : v / 4294967296 / 256 = v / 1099511627776 :=
    Nat.div_div_eq_div_mul v 4294967296 256
  have e3 : v / 16777216 / 256 = v / 4294967296 :=
    Nat.div_div_eq_div_mul v 16777216 256
  have e2 : v / 65536 / 256 = v / 16777216 :=
    Nat.div_div_eq_div_mul v 65536 256
  have e1 : v / 256 / 256 = v / 65536 :=
    Nat.div_div_eq_div_mul v 256 256
  have e0 : v / 18446744073709551616 = 0 := Nat.div_eq_of_lt hU
  simp only [extractValueFromContent, createDataWithValue, htobe64]
  norm_num [be64toh, List.take, List.foldl]
  omega

/-- C9 witness: the roundtrip at a concrete 64-bit value. -/
theorem createData_extract_roundtrip_witness :
    (1234567890123 : Nat) < U64 ∧
      extractValueFromContent (createDataWithValue [] 1234567890123)
        = 1234567890123 :=
  ⟨by decide, createData_extract_roundtrip [] 1234567890123 (by decide)⟩

/-- C10: an identifier belongs to the parsed set of a name exactly when
it is strictly positive and some component past the leading label, not
carrying the `"seq="` marker, parses (percent-stripped, via `std::stoi`)
to it; in particular 0 and negative identifiers never appear, `"seq="`
components, the leading label and unparsable components are skipped, and
the result is a set (deduplicated). -/
theorem parseNumbersFromName_mem_iff (name : List (List Char)) (x : Int) :
    x ∈ parseNumbersFromName name ↔
      0 < x ∧ ∃ u ∈ name.drop 1,
        containsPat seqMarker u = false ∧ stoiModel (stripPercent u) = some x := by
  unfold parseNumbersFromName
  rw [mem_foldl_parse]
  simp

/-- C3: a sub-interest response that empties `pendingIds` makes
`processSubInterestData` emit the final aggregated Data (value 50) even
though the entry is still waiting for identifier 2 from another entry
(`waitingFor` non-empty): the completion check reads only `pendingIds`,
unlike `processWaitingInterestData`, which checks both. -/
theorem subInterest_completes_despite_waitingFor :
    (processSubInterestData ⟨{2, 3}, {3}, 20, [(2, 7)]⟩ [] {3} 30).2 = some 50
    ∧ (⟨{2, 3}, {3}, 20, [(2, 7)]⟩ : AggregatePitInfo).waitingFor ≠ [] := by
  constructor
  · decide
  · decide

/-- C5: a request for {2,3} arriving while a superset entry for {1,2,3}
is pending is registered as that entry's dependent, yet sub-interests
for 2 and 3 are still forwarded: the `return` in the helper only leaves
`checkSubsetSupersetRelationships`, and `afterReceiveInterest` goes on
to split and forward. -/
theorem piggybacked_interest_still_forwarded :
    (afterReceiveInterest []
      (fun i => if i = 2 then some 1 else if i = 3 then some 2 else none)
      1 false [1] [⟨9, true, none, {1, 2, 3}, false⟩] 5 none
      {2, 3}).piggybackedOn = some 9
    ∧ (afterReceiveInterest []
      (fun i => if i = 2 then some 1 else if i = 3 then some 2 else none)
      1 false [1] [⟨9, true, none, {1, 2, 3}, false⟩] 5 none
      {2, 3}).forwarded = [(1, {2}), (2, {3})] := by
  constructor
  · decide
  · decide

/-- C2 counterexample: the parent for {1,2,3} resolves {1,2} through one
two-identifier sub-response of value 30 and {3} through an atomic
response; only the atomic value is cached, so the piggybacked dependent
needing exactly {1,2} is recomputed from the cache as 0, not 30. -/
theorem piggyback_sum_counterexample :
    (processSubResponses (freshInfo {1, 2, 3}, ([] : Cache))
        [({1, 2}, 30), ({3}, 40)]).1.pendingIds = ∅
    ∧ childSumFromCache
        (processSubResponses (freshInfo {1, 2, 3}, ([] : Cache))
          [({1, 2}, 30), ({3}, 40)]).2 {1, 2} = 0
    ∧ (0 : Nat) ≠ 30 := by
  refine ⟨by decide, by decide, by decide⟩

/-- C4 counterexample: a same-name request (name 5) arrives while the
first request's split sub-requests (entries 10 and 11, which hold the
out-records) are in flight; the original entry itself has no
out-records, so `checkInterestAggregation` returns false and processing
does not stop at admission. -/
theorem dedup_admission_counterexample :
    checkInterestAggregation 1 false [1] 5
      [⟨10, true, none, {2}, true⟩, ⟨11, true, none, {3}, true⟩] = false
    ∧ (afterReceiveInterest []
        (fun i => if i = 2 then some 1 else if i = 3 then some 2 else none)
        1 false [1]
        [⟨10, true, none, {2}, true⟩, ⟨11, true, none, {3}, true⟩]
        5 none {2, 3}).stoppedAtAdmission = false := by
  constructor
  · decide
  · decide

/-- C6 counterexample: with no route for identifier 2, the forwarded
sub-requests cover {1} only, so the union of their identifier sets
differs from the residual set {1,2}. -/
theorem split_union_counterexample :
    listUnion ((splitAndForwardInterests
        (fun i => if i = 1 then some 1 else none) {1, 2}).map (fun g => g.2))
      ≠ {1, 2} := by
  decide

/-- The identifiers covered by a list of responses. -/
def unionIds (rs : List (Finset Int × Nat)) : Finset Int :=
  listUnion (rs.map (fun r => r.1))

theorem subDataStep_pendingIds (st : AggregatePitInfo × Cache)
    (r : Finset Int × Nat) :
    (subDataStep st r).1.pendingIds = st.1.pendingIds \ r.1 := rfl

theorem subDataStep_partialSum (st : AggregatePitInfo × Cache)
    (r : Finset Int × Nat) :
    (subDataStep st r).1.partialSum = (st.1.partialSum + r.2) % U64 := rfl

theorem processSubResponses_pendingIds (rs : List (Finset Int × Nat))
    (st : AggregatePitInfo × Cache) :
    (processSubResponses st rs).1.pendingIds
      = st.1.pendingIds \ unionIds rs := by
  induction rs generalizing st with
  | nil => simp [processSubResponses, unionIds, listUnion]
  | cons r t ih =>
    have hstep : processSubResponses st (r :: t)
        = processSubResponses (subDataStep st r) t := rfl
    rw [hstep, ih, subDataStep_pendingIds]
    have hu : unionIds (r :: t) = r.1 ∪ unionIds t := rfl
    rw [hu]
    ext x
    simp only [Finset.mem_sdiff, Finset.mem_union]
    tauto

theorem processSubResponses_partialSum (rs : List (Finset Int × Nat))
    (st : AggregatePitInfo × Cache) (h : st.1.partialSum < U64) :
    (processSubResponses st rs).1.partialSum
      = (st.1.partialSum + (rs.map (fun r => r.2)).sum) % U64 := by
  induction rs generalizing st with
  | nil => simp [processSubResponses, Nat.mod_eq_of_lt h]
  | cons r t ih =>
    have hstep : processSubResponses st (r :: t)
        = processSubResponses (subDataStep st r) t := rfl
    rw [hstep, ih _ (Nat.mod_lt _ U64_pos)]
    rw [subDataStep_partialSum, List.map_cons, List.sum_cons,
      Nat.mod_add_mod, Nat.add_assoc]

theorem sum_of_disjoint_blocks (v : Int → Nat) :
    ∀ blocks : List (Finset Int), blocks.Pairwise (fun a b => a ∩ b = ∅) →
      (blocks.map (fun b => ∑ i ∈ b, v i)).sum = ∑ i ∈ listUnion blocks, v i := by
  intro blocks
  induction blocks with
  | nil => simp [listUnion]
  | cons b t ih =>
    intro hp
    rw [List.pairwise_cons] at hp
    have hu : listUnion (b :: t) = b ∪ listUnion t := rfl
    have hdisj : Disjoint b (listUnion t) := by
      rw [Finset.disjoint_left]
      intro x hxb hxu
      rcases mem_listUnion.mp hxu with ⟨s, hs, hxs⟩
      have := hp.1 s hs
      have : x ∈ b ∩ s := Finset.mem_inter.mpr ⟨hxb, hxs⟩
      rw [hp.1 s hs] at this
      exact absurd this (Finset.not_mem_empty x)
    rw [List.map_cons, List.sum_cons, ih hp.2, hu,
      Finset.sum_union hdisj]

/-- C1: for a fresh entry needing `needed` and any arrival order of
responses whose identifier sets are pairwise disjoint, non-empty and
together cover `needed` exactly once (each carrying the sum of its own
identifiers' values), no response before the last completes the entry,
and the last response makes `processSubInterestData` emit the final
aggregated Data carrying exactly the arithmetic sum of all identifiers'
values. -/
theorem aggregation_correctness (v : Int → Nat) (needed : Finset Int)
    (blocks : List (Finset Int)) (cache : Cache)
    (hdisj : blocks.Pairwise (fun a b => a ∩ b = ∅))
    (hcover : listUnion blocks = needed)
    (hne : ∀ b ∈ blocks, b ≠ ∅)
    (hovf : (∑ i ∈ needed, v i) < U64) :
    (∀ b1 b2, blocks = b1 ++ b2 → b2 ≠ [] →
      (processSubResponses (freshInfo needed, cache)
        (b1.map (fun b => (b, ∑ i ∈ b, v i)))).1.pendingIds ≠ ∅)
    ∧ (∀ b1 blast, blocks = b1 ++ [blast] →
      (processSubInterestData
        (processSubResponses (freshInfo needed, cache)
          (b1.map (fun b => (b, ∑ i ∈ b, v i)))).1
        (processSubResponses (freshInfo needed, cache)
          (b1.map (fun b => (b, ∑ i ∈ b, v i)))).2
        blast (∑ i ∈ blast, v i)).2
      = some (∑ i ∈ needed, v i)) := by
  have hUnionIds : ∀ bs : List (Finset Int),
      unionIds (bs.map (fun b => (b, ∑ i ∈ b, v i))) = listUnion bs := by
    intro bs
    induction bs with
    | nil => rfl
    | cons b t ih =>
      show b ∪ unionIds (t.map (fun b => (b, ∑ i ∈ b, v i))) = b ∪ listUnion t
      rw [ih]
  constructor
  · rintro b1 b2 rfl hb2
    rcases b2 with _ | ⟨b, rest⟩
    · exact absurd rfl hb2
    rcases Finset.nonempty_iff_ne_empty.mpr
        (hne b (by simp)) with ⟨x, hxb⟩
    have hxneeded : x ∈ needed := by
      rw [← hcover]
      exact mem_listUnion.mpr ⟨b, by simp, hxb⟩
    have hxnot : x ∉ listUnion b1 := by
      intro hx
      rcases mem_listUnion.mp hx with ⟨s, hs, hxs⟩
      have hdisjoint := (List.pairwise_append.mp hdisj).2.2 s hs b (by simp)
      have : x ∈ s ∩ b := Finset.mem_inter.mpr ⟨hxs, hxb⟩
      rw [hdisjoint] at this
      exact absurd this (Finset.not_mem_empty x)
    rw [processSubResponses_pendingIds, hUnionIds]
    exact Finset.ne_empty_of_mem
      (Finset.mem_sdiff.mpr ⟨hxneeded, hxnot⟩)
  · rintro b1 blast rfl
    have hfull : subDataStep
        (processSubResponses (freshInfo needed, cache)
          (b1.map (fun b => (b, ∑ i ∈ b, v i))))
        (blast, ∑ i ∈ blast, v i)
        = processSubResponses (freshInfo needed, cache)
          ((b1 ++ [blast]).map (fun b => (b, ∑ i ∈ b, v i))) := by
      rw [List.map_append]
      unfold processSubResponses
      rw [List.foldl_append]
      rfl
    have hpend : (processSubResponses (freshInfo needed, cache)
        ((b1 ++ [blast]).map (fun b => (b, ∑ i ∈ b, v i)))).1.pendingIds = ∅ := by
      rw [processSubResponses_pendingIds, hUnionIds, hcover]
      simp [freshInfo]
    have hsum : (processSubResponses (freshInfo needed, cache)
        ((b1 ++ [blast]).map (fun b => (b, ∑ i ∈ b, v i)))).1.partialSum
        = ∑ i ∈ needed, v i := by
      rw [processSubResponses_partialSum _ _ (by simp [freshInfo]; exact U64_pos)]
      have hvals : ((b1 ++ [blast]).map (fun b => (b, ∑ i ∈ b, v i))).map
          (fun r => r.2) = (b1 ++ [blast]).map (fun b => ∑ i ∈ b, v i) := by
        rw [List.map_map]
        rfl
      rw [hvals, sum_of_disjoint_blocks v _ hdisj, hcover]
      simp [freshInfo, Nat.mod_eq_of_lt hovf]
    have hsnd : (processSubInterestData
        (processSubResponses (freshInfo needed, cache)
          (b1.map (fun b => (b, ∑ i ∈ b, v i)))).1
        (processSubResponses (freshInfo needed, cache)
          (b1.map (fun b => (b, ∑ i ∈ b, v i)))).2
        blast (∑ i ∈ blast, v i)).2
        = if (processSubResponses (freshInfo needed, cache)
            ((b1 ++ [blast]).map (fun b => (b, ∑ i ∈ b, v i)))).1.pendingIds = ∅
          then some (processSubResponses (freshInfo needed, cache)
            ((b1 ++ [blast]).map (fun b => (b, ∑ i ∈ b, v i)))).1.partialSum
          else none := by
      unfold processSubInterestData
      rw [show updateParentWithSubInterestData
        (processSubResponses (freshInfo needed, cache)
          (b1.map (fun b => (b, ∑ i ∈ b, v i)))).1
        (processSubResponses (freshInfo needed, cache)
          (b1.map (fun b => (b, ∑ i ∈ b, v i)))).2
        blast (∑ i ∈ blast, v i)
        = processSubResponses (freshInfo needed, cache)
          ((b1 ++ [blast]).map (fun b => (b, ∑ i ∈ b, v i))) from hfull]
    rw [hsnd, if_pos hpend, hsum]

theorem childSum_fold (cache : Cache) (v : Int → Nat) :
    ∀ (l : List Int) (s : Nat), s < U64 →
      (∀ i ∈ l, cacheLookup cache i = some (v i)) →
      l.foldl (fun childSum cid =>
        match cacheLookup cache cid with
        | some w => (childSum + w) % U64
        | none => childSum) s
      = (s + (l.map v).sum) % U64 := by
  intro l
  induction l with
  | nil => intro s hs _; simp [Nat.mod_eq_of_lt hs]
  | cons i t ih =>
    intro s hs hall
    rw [List.foldl_cons]
    have hi := hall i (by simp)
    simp only [hi]
    rw [ih _ (Nat.mod_lt _ U64_pos) (fun j hj => hall j (by simp [hj]))]
    rw [List.map_cons, List.sum_cons, Nat.mod_add_mod, Nat.add_assoc]

/-- C2 (amended): a dependent whose needed identifiers are all present
in the value cache with their values receives, when its superset parent
completes, exactly the sum of its own identifiers' values — independent
of the parent's larger sum. -/
theorem piggyback_sum_from_cache (v : Int → Nat) (cache : Cache)
    (childNeeded superIds : Finset Int)
    (_hsub : childNeeded ⊆ superIds)
    (hcache : ∀ i ∈ childNeeded, cacheLookup cache i = some (v i))
    (hovf : (∑ i ∈ childNeeded, v i) < U64) :
    childSumFromCache cache childNeeded = ∑ i ∈ childNeeded, v i := by
  unfold childSumFromCache
  rw [childSum_fold cache v (ascList childNeeded) 0 U64_pos
    (fun i hi => hcache i (mem_ascList.mp hi))]
  rw [ascList_map_sum]
  simp [Nat.mod_eq_of_lt hovf]

/-- C2 witness: child {1,2} with both values cached gets 10 + 20 = 30. -/
theorem piggyback_sum_from_cache_witness :
    ({1, 2} : Finset Int) ⊆ {1, 2, 3}
    ∧ childSumFromCache [(1, 10), (2, 20), (3, 40)] {1, 2}
        = ∑ i ∈ ({1, 2} : Finset Int),
            (fun i : Int => if i = 1 then 10 else if i = 2 then 20 else 40) i :=
  ⟨by decide,
   piggyback_sum_from_cache
     (fun i : Int => if i = 1 then 10 else if i = 2 then 20 else 40)
     [(1, 10), (2, 20), (3, 40)] {1, 2} {1, 2, 3}
     (by decide) (by decide) (by decide)⟩

/-- The cache-hit step inside `processContentStoreHits`. -/
def csHitStep (cache : Cache) (acc : AggregatePitInfo) (id : Int) :
    AggregatePitInfo :=
  match cacheLookup cache id with
  | some cachedValue =>
      { acc with
        partialSum := (acc.partialSum + cachedValue) % U64,
        pendingIds := acc.pendingIds.erase id }
  | none => acc

theorem processContentStoreHits_eq_fold (cache : Cache)
    (info : AggregatePitInfo) :
    processContentStoreHits cache info
      = (ascList info.pendingIds).foldl (csHitStep cache) info := rfl

theorem csHits_fold_pendingIds (cache : Cache) :
    ∀ (l : List Int) (acc : AggregatePitInfo),
      (l.foldl (csHitStep cache) acc).pendingIds
        = acc.pendingIds \
            (l.filter (fun i => (cacheLookup cache i).isSome)).toFinset := by
  intro l
  induction l with
  | nil => intro acc; simp
  | cons i t ih =>
    intro acc
    rw [List.foldl_cons, ih]
    cases hi : cacheLookup cache i with
    | none =>
      have hfilter : (i :: t).filter (fun j => (cacheLookup cache j).isSome)
          = t.filter (fun j => (cacheLookup cache j).isSome) := by
        simp [List.filter_cons, hi]
      rw [hfilter]
      simp only [csHitStep, hi]
    | some w =>
      have hfilter : (i :: t).filter (fun j => (cacheLookup cache j).isSome)
          = i :: t.filter (fun j => (cacheLookup cache j).isSome) := by
        simp [List.filter_cons, hi]
      rw [hfilter]
      simp only [csHitStep, hi, List.toFinset_cons]
      ext x
      simp only [Finset.mem_sdiff, Finset.mem_erase, Finset.mem_insert,
        List.mem_toFinset]
      tauto

theorem csHits_fold_partialSum (cache : Cache) :
    ∀ (l : List Int) (acc : AggregatePitInfo), acc.partialSum < U64 →
      (l.foldl (csHitStep cache) acc).partialSum
        = (acc.partialSum
            + (l.map (fun i => (cacheLookup cache i).getD 0)).sum) % U64 := by
  intro l
  induction l with
  | nil => intro acc hacc; simp [Nat.mod_eq_of_lt hacc]
  | cons i t ih =>
    intro acc hacc
    rw [List.foldl_cons, List.map_cons, List.sum_cons]
    cases hi : cacheLookup cache i with
    | none =>
      have hstep : csHitStep cache acc i = acc := by
        simp [csHitStep, hi]
      rw [hstep, ih _ hacc]
      simp
    | some w =>
      have hstep : csHitStep cache acc i
          = { acc with
              partialSum := (acc.partialSum + w) % U64,
              pendingIds := acc.pendingIds.erase i } := by
        simp [csHitStep, hi]
      rw [hstep, ih _ (Nat.mod_lt _ U64_pos)]
      simp only [Option.getD_some]
      rw [Nat.mod_add_mod, Nat.add_assoc]

theorem csHits_pendingIds (cache : Cache) (info : AggregatePitInfo) :
    (processContentStoreHits cache info).pendingIds
      = info.pendingIds.filter (fun i => cacheLookup cache i = none) := by
  rw [processContentStoreHits_eq_fold, csHits_fold_pendingIds]
  ext x
  simp only [Finset.mem_sdiff, List.mem_toFinset, List.mem_filter,
    Finset.mem_filter, mem_ascList]
  cases hx : cacheLookup cache x with
  | none => simp
  | some w => simp

theorem csHits_partialSum (cache : Cache) (info : AggregatePitInfo)
    (h : info.partialSum < U64) :
    (processContentStoreHits cache info).partialSum
      = (info.partialSum
          + ∑ i ∈ info.pendingIds, (cacheLookup cache i).getD 0) % U64 := by
  rw [processContentStoreHits_eq_fold, csHits_fold_partialSum cache _ _ h,
    ascList_map_sum]

/-- The identifiers covered by subset entries (matching generation
marker, aggregate namespace, ids included in the request's set) during
the overlap scan. -/
def coveredBySubsets (iseq : Option Nat) (requestedIds : Finset Int) :
    List PitSnapshot → Finset Int
  | [] => ∅
  | e :: rest =>
    if e.isAggregate = true ∧ doSequenceComponentsMatch e.seq iseq = true
        ∧ e.ids ⊆ requestedIds then
      e.ids ∪ coveredBySubsets iseq requestedIds rest
    else coveredBySubsets iseq requestedIds rest

theorem mem_coveredBySubsets (iseq : Option Nat) (requestedIds : Finset Int)
    (x : Int) : ∀ others : List PitSnapshot,
    (x ∈ coveredBySubsets iseq requestedIds others ↔
      ∃ e ∈ others, e.isAggregate = true
        ∧ doSequenceComponentsMatch e.seq iseq = true
        ∧ e.ids ⊆ requestedIds ∧ x ∈ e.ids) := by
  intro others
  induction others with
  | nil => simp [coveredBySubsets]
  | cons e rest ih =>
    by_cases hcond : e.isAggregate = true
        ∧ doSequenceComponentsMatch e.seq iseq = true
        ∧ e.ids ⊆ requestedIds
    · simp only [coveredBySubsets, if_pos hcond, Finset.mem_union, ih,
        List.mem_cons]
      constructor
      · rintro (hx | ⟨f, hf, hfa⟩)
        · exact ⟨e, Or.inl rfl, hcond.1, hcond.2.1, hcond.2.2, hx⟩
        · exact ⟨f, Or.inr hf, hfa⟩
      · rintro ⟨f, (rfl | hf), hfa⟩
        · exact Or.inl hfa.2.2.2
        · exact Or.inr ⟨f, hf, hfa⟩
    · simp only [coveredBySubsets, if_neg hcond, ih, List.mem_cons]
      constructor
      · rintro ⟨f, hf, hfa⟩
        exact ⟨f, Or.inr hf, hfa⟩
      · rintro ⟨f, (rfl | hf), hfa⟩
        · exact absurd ⟨hfa.1, hfa.2.1, hfa.2.2.1⟩ hcond
        · exact ⟨f, hf, hfa⟩

theorem checkSS_no_superset (iseq : Option Nat) (requestedIds : Finset Int) :
    ∀ (others : List PitSnapshot) (info : AggregatePitInfo),
      (∀ e ∈ others, e.isAggregate = true →
        doSequenceComponentsMatch e.seq iseq = true →
        ¬ requestedIds ⊆ e.ids) →
      (checkSubsetSupersetRelationships iseq requestedIds info others).2 = none
      ∧ (checkSubsetSupersetRelationships iseq requestedIds info others).1.pendingIds
          = info.pendingIds \ coveredBySubsets iseq requestedIds others := by
  intro others
  induction others with
  | nil => intro info _; simp [checkSubsetSupersetRelationships, coveredBySubsets]
  | cons e rest ih =>
    intro info hnosup
    have hrest : ∀ f ∈ rest, f.isAggregate = true →
        doSequenceComponentsMatch f.seq iseq = true →
        ¬ requestedIds ⊆ f.ids :=
      fun f hf => hnosup f (List.mem_cons_of_mem e hf)
    by_cases ha : e.isAggregate = true
    · by_cases hq : doSequenceComponentsMatch e.seq iseq = true
      · have hnsup : ¬ requestedIds ⊆ e.ids := hnosup e (by simp) ha hq
        by_cases hsubset : e.ids ⊆ requestedIds
        · have hunfold : checkSubsetSupersetRelationships iseq requestedIds info (e :: rest)
              = checkSubsetSupersetRelationships iseq requestedIds
                { info with
                  pendingIds := info.pendingIds \ e.ids,
                  waitingFor := info.waitingFor
                    ++ (ascList (info.pendingIds ∩ e.ids)).map (fun i => (i, e.name)) }
                rest := by
            simp only [checkSubsetSupersetRelationships, ha, hq,
              if_neg hnsup, if_pos hsubset]
            simp
          rw [hunfold]
          rcases ih _ hrest with ⟨h2, h1⟩
          refine ⟨h2, ?_⟩
          rw [h1]
          have hcondp : e.isAggregate = true
              ∧ doSequenceComponentsMatch e.seq iseq = true
              ∧ e.ids ⊆ requestedIds := ⟨ha, hq, hsubset⟩
          have hcov : coveredBySubsets iseq requestedIds (e :: rest)
              = e.ids ∪ coveredBySubsets iseq requestedIds rest := by
            simp only [coveredBySubsets, if_pos hcondp]
          rw [hcov]
          ext x
          simp only [Finset.mem_sdiff, Finset.mem_union]
          tauto
        · have hunfold : checkSubsetSupersetRelationships iseq requestedIds info (e :: rest)
              = checkSubsetSupersetRelationships iseq requestedIds info rest := by
            simp only [checkSubsetSupersetRelationships, ha, hq,
              if_neg hnsup, if_neg hsubset]
            simp
          rw [hunfold]
          rcases ih _ hrest with ⟨h2, h1⟩
          refine ⟨h2, ?_⟩
          rw [h1]
          have hcond : ¬(e.isAggregate = true
              ∧ doSequenceComponentsMatch e.seq iseq = true
              ∧ e.ids ⊆ requestedIds) := by
            intro h
            exact hsubset h.2.2
          have hcov : coveredBySubsets iseq requestedIds (e :: rest)
              = coveredBySubsets iseq requestedIds rest := by
            simp only [coveredBySubsets, if_neg hcond]
          rw [hcov]
      · have hunfold : checkSubsetSupersetRelationships iseq requestedIds info (e :: rest)
            = checkSubsetSupersetRelationships iseq requestedIds info rest := by
          simp only [checkSubsetSupersetRelationships]
          rw [if_neg (by simp [ha]), if_pos (by simp [hq])]
        rw [hunfold]
        rcases ih _ hrest with ⟨h2, h1⟩
        refine ⟨h2, ?_⟩
        rw [h1]
        have hcond : ¬(e.isAggregate = true
            ∧ doSequenceComponentsMatch e.seq iseq = true
            ∧ e.ids ⊆ requestedIds) := by
          intro h
          exact hq h.2.1
        have hcov : coveredBySubsets iseq requestedIds (e :: rest)
            = coveredBySubsets iseq requestedIds rest := by
          simp only [coveredBySubsets, if_neg hcond]
        rw [hcov]
    · have hunfold : checkSubsetSupersetRelationships iseq requestedIds info (e :: rest)
          = checkSubsetSupersetRelationships iseq requestedIds info rest := by
        simp only [checkSubsetSupersetRelationships]
        rw [if_pos (by simp [ha])]
      rw [hunfold]
      rcases ih _ hrest with ⟨h2, h1⟩
      refine ⟨h2, ?_⟩
      rw [h1]
      have hcond : ¬(e.isAggregate = true
          ∧ doSequenceComponentsMatch e.seq iseq = true
          ∧ e.ids ⊆ requestedIds) := by
        intro h
        exact ha h.1
      have hcov : coveredBySubsets iseq requestedIds (e :: rest)
          = coveredBySubsets iseq requestedIds rest := by
        simp only [coveredBySubsets, if_neg hcond]
      rw [hcov]

theorem splitGroups_empty (route : Int → Option Nat) :
    splitGroups route ∅ = [] := by
  simp [splitGroups, ascList, ascListAux]

theorem splitAndForward_empty (route : Int → Option Nat) :
    splitAndForwardInterests route ∅ = [] := by
  simp [splitAndForwardInterests]

theorem splitAndForward_eq_splitGroups (route : Int → Option Nat)
    (pendingIds : Finset Int) :
    splitAndForwardInterests route pendingIds = splitGroups route pendingIds := by
  by_cases hP : pendingIds = ∅
  · subst hP
    rw [splitAndForward_empty, splitGroups_empty]
  · unfold splitAndForwardInterests
    rw [if_neg hP]
    rcases hgs : splitGroups route pendingIds with _ | ⟨g, _ | ⟨g2, t⟩⟩
    · rfl
    · by_cases hcard : g.2.card = pendingIds.card
      · have hmem : g ∈ splitGroups route pendingIds := by
          rw [hgs]; simp
        have hsnd : g.2 = pendingIds.filter (fun i => route i = some g.1) := by
          unfold splitGroups at hmem
          rcases List.mem_map.mp hmem with ⟨f, _, hfg⟩
          rw [← hfg]
        have hsub : g.2 ⊆ pendingIds := by
          rw [hsnd]; exact Finset.filter_subset _ _
        have heq : g.2 = pendingIds :=
          Finset.eq_of_subset_of_card_le hsub (le_of_eq hcard.symm)
        show (if g.2.card = pendingIds.card then [(g.1, pendingIds)] else [g]) = [g]
        rw [if_pos hcard, ← heq]
      · show (if g.2.card = pendingIds.card then [(g.1, pendingIds)] else [g]) = [g]
        rw [if_neg hcard]
    · rfl

theorem listUnion_splitGroups (route : Int → Option Nat)
    (pendingIds : Finset Int) :
    listUnion ((splitGroups route pendingIds).map (fun g => g.2))
      = pendingIds.filter (fun i => (route i).isSome) := by
  ext x
  rw [mem_listUnion]
  simp only [List.mem_map]
  constructor
  · rintro ⟨s, ⟨g, hg, rfl⟩, hxs⟩
    unfold splitGroups at hg
    rcases List.mem_map.mp hg with ⟨f, _, rfl⟩
    rcases Finset.mem_filter.mp hxs with ⟨hxp, hroute⟩
    exact Finset.mem_filter.mpr ⟨hxp, by rw [hroute]; rfl⟩
  · intro hx
    rcases Finset.mem_filter.mp hx with ⟨hxp, hsome⟩
    rcases Option.isSome_iff_exists.mp hsome with ⟨f, hf⟩
    have hface : f ∈ ((ascList pendingIds).filterMap route).dedup := by
      rw [List.mem_dedup]
      exact List.mem_filterMap.mpr ⟨x, mem_ascList.mpr hxp, hf⟩
    refine ⟨pendingIds.filter (fun i => route i = some f),
      ⟨(f, pendingIds.filter (fun i => route i = some f)), ?_, rfl⟩, ?_⟩
    · unfold splitGroups
      exact List.mem_map.mpr ⟨f, hface, rfl⟩
    · exact Finset.mem_filter.mpr ⟨hxp, hf⟩

theorem pairwise_splitGroups (route : Int → Option Nat)
    (pendingIds : Finset Int) :
    ((splitGroups route pendingIds).map (fun g => g.2)).Pairwise Disjoint := by
  unfold splitGroups
  rw [List.map_map]
  rw [List.pairwise_map]
  have hnodup : ((ascList pendingIds).filterMap route).dedup.Nodup :=
    List.nodup_dedup _
  refine hnodup.imp ?_
  intro f f' hff
  show Disjoint (pendingIds.filter (fun i => route i = some f))
    (pendingIds.filter (fun i => route i = some f'))
  rw [Finset.disjoint_left]
  intro x hx hx'
  rcases Finset.mem_filter.mp hx with ⟨_, h1⟩
  rcases Finset.mem_filter.mp hx' with ⟨_, h2⟩
  rw [h1] at h2
  exact hff (Option.some.inj h2)

/-- C6 (amended): the forwarded sub-requests' identifier sets are
pairwise disjoint and their union is exactly the routable part of the
residual set (so the union equals the full residual set exactly when
every identifier has a route; unroutable identifiers are dropped). -/
theorem split_partitions_routable (route : Int → Option Nat)
    (pendingIds : Finset Int) :
    ((splitAndForwardInterests route pendingIds).map (fun g => g.2)).Pairwise Disjoint
    ∧ listUnion ((splitAndForwardInterests route pendingIds).map (fun g => g.2))
        = pendingIds.filter (fun i => (route i).isSome) := by
  rw [splitAndForward_eq_splitGroups]
  exact ⟨pairwise_splitGroups route pendingIds,
    listUnion_splitGroups route pendingIds⟩

/-- C7: an unroutable residual identifier is in no forwarded sub-request,
is left in `pendingIds` by the split (which never mutates it), and as
long as arriving responses only cover forwarded identifiers, the entry's
`pendingIds` retains it and never empties — the completion condition is
unreachable and only deadline expiry can remove the entry. -/
theorem unroutable_identifier_stalls (route : Int → Option Nat)
    (info : AggregatePitInfo) (cache : Cache) (id : Int)
    (hid : id ∈ info.pendingIds) (hroute : route id = none) :
    (∀ g ∈ splitAndForwardInterests route info.pendingIds, id ∉ g.2)
    ∧ ∀ rs : List (Finset Int × Nat),
        (∀ r ∈ rs, r.1 ⊆ listUnion
          ((splitAndForwardInterests route info.pendingIds).map (fun g => g.2))) →
        id ∈ (processSubResponses (info, cache) rs).1.pendingIds
        ∧ (processSubResponses (info, cache) rs).1.pendingIds ≠ ∅ := by
  have hnotun : id ∉ listUnion
      ((splitAndForwardInterests route info.pendingIds).map (fun g => g.2)) := by
    rw [(split_partitions_routable route info.pendingIds).2]
    intro hmem
    rcases Finset.mem_filter.mp hmem with ⟨_, hsome⟩
    rw [hroute] at hsome
    cases hsome
  constructor
  · intro g hg hidg
    exact hnotun (mem_listUnion.mpr
      ⟨g.2, List.mem_map.mpr ⟨g, hg, rfl⟩, hidg⟩)
  · intro rs hrs
    have hstay : id ∈ (processSubResponses (info, cache) rs).1.pendingIds := by
      rw [processSubResponses_pendingIds]
      refine Finset.mem_sdiff.mpr ⟨hid, ?_⟩
      intro hun
      rcases mem_listUnion.mp hun with ⟨s, hs, hxs⟩
      rcases List.mem_map.mp hs with ⟨r, hr, rfl⟩
      exact hnotun (hrs r hr hxs)
    exact ⟨hstay, Finset.ne_empty_of_mem hstay⟩

/-- C7 witness: identifier 2 has no route; concrete instance. -/
theorem unroutable_identifier_stalls_witness :
    (2 : Int) ∈ ({1, 2} : Finset Int) ∧
    ((∀ g ∈ splitAndForwardInterests (fun i => if i = 1 then some 1 else none)
        (freshInfo {1, 2}).pendingIds, (2 : Int) ∉ g.2)
    ∧ ∀ rs : List (Finset Int × Nat),
        (∀ r ∈ rs, r.1 ⊆ listUnion
          ((splitAndForwardInterests (fun i => if i = 1 then some 1 else none)
            (freshInfo {1, 2}).pendingIds).map (fun g => g.2))) →
        (2 : Int) ∈ (processSubResponses (freshInfo {1, 2}, ([] : Cache)) rs).1.pendingIds
        ∧ (processSubResponses (freshInfo {1, 2}, ([] : Cache)) rs).1.pendingIds ≠ ∅) :=
  ⟨by decide,
   unroutable_identifier_stalls (fun i => if i = 1 then some 1 else none)
     (freshInfo {1, 2}) [] 2 (by decide) (by decide)⟩

/-- C4 (amended): a second request passes admission when the same-name
entry has no out-records (its sub-requests live on derived entries), but
it still forwards nothing: every requested identifier is either already
cached or covered by an in-flight subset entry (one of the first
request's sub-requests), so after the cache pass and the overlap scan
nothing remains to split, provided no other entry is a superset of the
request. -/
theorem dedup_no_second_forward (cache : Cache) (route : Int → Option Nat)
    (ingressFace : Nat) (ownOut : Bool) (ownIn : List Nat)
    (others : List PitSnapshot) (iname : Nat) (iseq : Option Nat)
    (requestedIds : Finset Int)
    (hnosup : ∀ e ∈ others, e.isAggregate = true →
        doSequenceComponentsMatch e.seq iseq = true →
        ¬ requestedIds ⊆ e.ids)
    (hcov : ∀ id ∈ requestedIds, (cacheLookup cache id).isSome = true
        ∨ ∃ e ∈ others, e.isAggregate = true
            ∧ doSequenceComponentsMatch e.seq iseq = true
            ∧ e.ids ⊆ requestedIds ∧ id ∈ e.ids) :
    (afterReceiveInterest cache route ingressFace ownOut ownIn others
      iname iseq requestedIds).forwarded = [] := by
  by_cases hadm : checkInterestAggregation ingressFace ownOut ownIn iname others = true
  · simp only [afterReceiveInterest, if_pos hadm]
  · have hinfo1 : (processContentStoreHits cache (freshInfo requestedIds)).pendingIds
        = requestedIds.filter (fun i => cacheLookup cache i = none) :=
      csHits_pendingIds cache (freshInfo requestedIds)
    rcases checkSS_no_superset iseq requestedIds others
        (processContentStoreHits cache (freshInfo requestedIds)) hnosup
      with ⟨-, hpend⟩
    have hempty : (checkSubsetSupersetRelationships iseq requestedIds
        (processContentStoreHits cache (freshInfo requestedIds)) others).1.pendingIds
        = ∅ := by
      rw [hpend, hinfo1]
      rw [Finset.eq_empty_iff_forall_not_mem]
      intro x hx
      rcases Finset.mem_sdiff.mp hx with ⟨hxf, hxcov⟩
      rcases Finset.mem_filter.mp hxf with ⟨hxreq, hxnone⟩
      rcases hcov x hxreq with hsome | ⟨e, he, hea, heq, hsub, hxe⟩
      · rw [hxnone] at hsome
        cases hsome
      · exact hxcov ((mem_coveredBySubsets iseq requestedIds x others).mpr
          ⟨e, he, hea, heq, hsub, hxe⟩)
    simp only [afterReceiveInterest, if_neg hadm]
    by_cases h1 : (processContentStoreHits cache (freshInfo requestedIds)).pendingIds = ∅
    · simp [h1]
    · simp [h1, hempty, splitAndForward_empty]

/-- C4 witness: the concrete second request for {2,3}: the sub-entries
{2} and {3} cover it, and nothing is forwarded. -/
theorem dedup_no_second_forward_witness :
    (afterReceiveInterest []
      (fun i => if i = 2 then some 1 else if i = 3 then some 2 else none)
      1 false [1]
      [⟨10, true, none, {2}, true⟩, ⟨11, true, none, {3}, true⟩]
      5 none {2, 3}).forwarded = [] :=
  dedup_no_second_forward []
    (fun i => if i = 2 then some 1 else if i = 3 then some 2 else none)
    1 false [1]
    [⟨10, true, none, {2}, true⟩, ⟨11, true, none, {3}, true⟩]
    5 none {2, 3} (by decide) (by decide)

/-- C8: for an admitted aggregate request, the content-store pass drops
exactly the cached identifiers from `pendingIds` and accumulates their
cached values into `partialSum` (`uint64_t` wrap); when that empties
`pendingIds`, the request is satisfied immediately: a response carrying
`partialSum` goes to the downstream faces and nothing is forwarded. -/
theorem contentstore_hit_shortcut (cache : Cache) (route : Int → Option Nat)
    (ingressFace : Nat) (ownOut : Bool) (ownIn : List Nat)
    (others : List PitSnapshot) (iname : Nat) (iseq : Option Nat)
    (requestedIds : Finset Int)
    (hadm : checkInterestAggregation ingressFace ownOut ownIn iname others
      = false) :
    (processContentStoreHits cache (freshInfo requestedIds)).pendingIds
      = requestedIds.filter (fun i => cacheLookup cache i = none)
    ∧ (processContentStoreHits cache (freshInfo requestedIds)).partialSum
      = (∑ i ∈ requestedIds, (cacheLookup cache i).getD 0) % U64
    ∧ ((processContentStoreHits cache (freshInfo requestedIds)).pendingIds = ∅ →
        (afterReceiveInterest cache route ingressFace ownOut ownIn others
          iname iseq requestedIds).satisfiedFromCache = true
        ∧ (afterReceiveInterest cache route ingressFace ownOut ownIn others
            iname iseq requestedIds).cacheResponseValue
          = some ((processContentStoreHits cache (freshInfo requestedIds)).partialSum)
        ∧ (afterReceiveInterest cache route ingressFace ownOut ownIn others
            iname iseq requestedIds).deliveredTo = ownIn
        ∧ (afterReceiveInterest cache route ingressFace ownOut ownIn others
            iname iseq requestedIds).forwarded = []) := by
  have hadm' : ¬ checkInterestAggregation ingressFace ownOut ownIn iname others
      = true := by
    simp [hadm]
  refine ⟨csHits_pendingIds cache (freshInfo requestedIds), ?_, ?_⟩
  · have hps := csHits_partialSum cache (freshInfo requestedIds)
      (by show (0 : Nat) < U64; exact U64_pos)
    simpa [freshInfo] using hps
  · intro h
    refine ⟨?_, ?_, ?_, ?_⟩ <;>
      simp only [afterReceiveInterest, if_neg hadm', if_pos h]

/-- C8 witness: both requested identifiers cached; the request is
satisfied from the cache with value 50 and nothing is forwarded. -/
theorem contentstore_hit_shortcut_witness :
    ((processContentStoreHits [(2, 20), (3, 30)] (freshInfo {2, 3})).pendingIds
      = Finset.filter (fun i => cacheLookup [(2, 20), (3, 30)] i = none) {2, 3}
    ∧ (processContentStoreHits [(2, 20), (3, 30)] (freshInfo {2, 3})).partialSum
      = (∑ i ∈ ({2, 3} : Finset Int), (cacheLookup [(2, 20), (3, 30)] i).getD 0) % U64
    ∧ ((processContentStoreHits [(2, 20), (3, 30)] (freshInfo {2, 3})).pendingIds = ∅ →
        (afterReceiveInterest [(2, 20), (3, 30)] (fun _ => none) 1 false [7, 8] [] 5 none
          {2, 3}).satisfiedFromCache = true
        ∧ (afterReceiveInterest [(2, 20), (3, 30)] (fun _ => none) 1 false [7, 8] [] 5 none
            {2, 3}).cacheResponseValue
          = some ((processContentStoreHits [(2, 20), (3, 30)] (freshInfo {2, 3})).partialSum)
        ∧ (afterReceiveInterest [(2, 20), (3, 30)] (fun _ => none) 1 false [7, 8] [] 5 none
            {2, 3}).deliveredTo = [7, 8]
        ∧ (afterReceiveInterest [(2, 20), (3, 30)] (fun _ => none) 1 false [7, 8] [] 5 none
            {2, 3}).forwarded = [])) :=
  contentstore_hit_shortcut [(2, 20), (3, 30)] (fun _ => none) 1 false [7, 8]
    [] 5 none {2, 3} (by decide)

/-- A concrete value assignment used by the aggregation witness. -/
def vA : Int → Nat := fun i => if i = 1 then 10 else if i = 2 then 20 else 0

/-- C1 witness: needed {1,2} covered by the blocks {2} then {1} (reverse
order); the last response triggers emission of 10 + 20 = 30. -/
theorem aggregation_correctness_witness :
    (∀ b1 b2, [({2} : Finset Int), {1}] = b1 ++ b2 → b2 ≠ [] →
      (processSubResponses (freshInfo {1, 2}, ([] : Cache))
        (b1.map (fun b => (b, ∑ i ∈ b, vA i)))).1.pendingIds ≠ ∅)
    ∧ (∀ b1 blast, [({2} : Finset Int), {1}] = b1 ++ [blast] →
      (processSubInterestData
        (processSubResponses (freshInfo {1, 2}, ([] : Cache))
          (b1.map (fun b => (b, ∑ i ∈ b, vA i)))).1
        (processSubResponses (freshInfo {1, 2}, ([] : Cache))
          (b1.map (fun b => (b, ∑ i ∈ b, vA i)))).2
        blast (∑ i ∈ blast, vA i)).2
      = some (∑ i ∈ ({1, 2} : Finset Int), vA i)) :=
  aggregation_correctness vA {1, 2} [{2}, {1}] []
    (by decide) (by decide) (by decide) (by decide)
